import Mathlib

/-!
Verification of the retrieval / chunking core of DocPilot-AI (`src/app.py`).

Strings are modelled as `List Char` (ASCII model of Python `str`: `str.lower`,
`str.strip`, `str.split` and the regex `\s` are read over the ASCII
whitespace/letter ranges, which is all this repository's text handling relies
on).  Python sets of words become `Finset (List Char)`; the process-wide
mutable corpus `DOCUMENT_CHUNKS` becomes explicit state passing; the Groq HTTP
call becomes an oracle parameter.
-/

namespace DocPilot

/-- Python ASCII whitespace, as used by `str.split()`, `str.strip()` and the
regex class `\s` in `app.py`. -/
def pyIsSpace (c : Char) : Bool :=
  c == ' ' || c == '\t' || c == '\n' || c == '\r' || c == '\x0b' || c == '\x0c'

/-- Python `str.strip()`: drop leading and trailing whitespace. -/
def pyStrip (s : List Char) : List Char :=
  ((s.dropWhile pyIsSpace).reverse.dropWhile pyIsSpace).reverse

/-- The loop of `chunk_text` (`app.py` lines 44-50): walk the text in windows
of `cs` characters, strip each window, keep it when its stripped length
exceeds 50.  `cs = 0` (where Python `range` would raise) returns `[]`. -/
def chunkTextGo (cs : Nat) (text : List Char) : List (List Char) :=
  if h : cs = 0 ∨ text = [] then []
  else
    let chunk := pyStrip (text.take cs)
    let rest := chunkTextGo cs (text.drop cs)
    if 50 < chunk.length then chunk :: rest else rest
termination_by text.length
decreasing_by
  simp only [not_or] at h
  simp only [List.length_drop]
  have h1 : cs ≠ 0 := h.1
  have h2 : text ≠ [] := h.2
  have h3 : 0 < text.length := List.length_pos.mpr h2
  omega

/-- `chunk_text(text, chunk_size)` from `app.py`; the Python default for
`chunk_size` is 400. -/
def chunkText (text : List Char) (chunkSize : Nat) : List (List Char) :=
  chunkTextGo chunkSize text

/-- Lowercase alphanumeric characters `[a-z0-9]`, the characters kept by the
regex substitution in `clean_words`. -/
def isKeep (c : Char) : Bool :=
  (97 ≤ c.toNat && c.toNat ≤ 122) || (48 ≤ c.toNat && c.toNat ≤ 57)

/-- `re.sub(r"[^a-z0-9\s]", " ", ·)` applied character-wise: any character
that is not a lowercase letter, digit or whitespace becomes a space. -/
def sanitizeChar (c : Char) : Char :=
  if isKeep c || pyIsSpace c then c else ' '

/-- Helper of `splitWs`: `acc` holds the (reversed) current token. -/
def splitWsAux : List Char → List Char → List (List Char)
  | [], acc => if acc.isEmpty then [] else [acc.reverse]
  | c :: cs, acc =>
    if pyIsSpace c then
      if acc.isEmpty then splitWsAux cs [] else acc.reverse :: splitWsAux cs []
    else splitWsAux cs (c :: acc)

/-- Python `str.split()` with no argument: split on whitespace runs,
dropping empty tokens. -/
def splitWs (s : List Char) : List (List Char) :=
  splitWsAux s []

/-- `clean_words` (`app.py` lines 53-56): lowercase, replace every character
outside `[a-z0-9\s]` by a space, split on whitespace, collect into a set. -/
def cleanWords (text : List Char) : Finset (List Char) :=
  (splitWs ((text.map Char.toLower).map sanitizeChar)).toFinset

/-- Stable insertion (descending by first component): insert `p` before the
first element whose key is `≤ p.1`.  Together with `sortDesc` this models
Python's stable `list.sort(reverse=True, key=lambda x: x[0])`. -/
def insertDesc (p : Nat × List Char) : List (Nat × List Char) → List (Nat × List Char)
  | [] => [p]
  | q :: qs => if q.1 ≤ p.1 then p :: q :: qs else q :: insertDesc p qs

/-- Stable descending sort by the first component (overlap score), modelling
`scored_chunks.sort(reverse=True, key=lambda x: x[0])`. -/
def sortDesc : List (Nat × List Char) → List (Nat × List Char)
  | [] => []
  | p :: ps => insertDesc p (sortDesc ps)

/-- `retrieve_relevant_chunks` (`app.py` lines 59-73), with the corpus
`DOCUMENT_CHUNKS` passed explicitly.  The Python default for `top_k` is 3. -/
def retrieveRelevantChunks (corpus : List (List Char)) (query : List Char)
    (topK : Nat) : List (List Char) :=
  let queryWords := cleanWords query
  if queryWords = ∅ then []
  else
    let scored := corpus.filterMap (fun chunk =>
      let overlapScore := (queryWords ∩ cleanWords chunk).card
      if 0 < overlapScore then some (overlapScore, chunk) else none)
    ((sortDesc scored).take topK).map (fun p => p.2)

/-! ### The application layer (`ask_groq`, `process_pdfs`, `chat_fn`, `clear_all`)

The global `DOCUMENT_CHUNKS` is passed and returned explicitly; the HTTP POST
to the Groq endpoint is an oracle `Net` mapping the request messages to a
response (status code and, for status 200, the extracted content string). -/

/-- Roles of the messages in the Groq request payload. -/
inductive Role where
  | system
  | user
  | assistant
deriving DecidableEq, Repr

/-- A chat-transcript entry (Gradio `messages` format: role + content). -/
structure ChatMsg where
  role : Role
  content : List Char
deriving DecidableEq, Repr

/-- Response of the completion endpoint: HTTP status, plus the content at
`json()["choices"][0]["message"]["content"]` when the status is 200. -/
structure NetResp where
  status : Nat
  content : List Char

/-- Oracle for `requests.post(GROQ_URL, ...)`: from the request's message
list to a response.  (Model name, temperature and max_tokens are constants in
`app.py` and do not affect any control flow, so the oracle keys on the
messages.) -/
abbrev Net : Type := List (Role × List Char) → NetResp

/-- The corpus `DOCUMENT_CHUNKS`. -/
abbrev Corpus : Type := List (List Char)

def msgNoFiles : List Char := "❌ No files uploaded.".toList

def msgNoKey : List Char := "❌ GROQ API key not found.".toList

def msgNoRelevant : List Char := "No relevant information found in the uploaded PDFs.".toList

def msgGroqError : List Char := "❌ Error communicating with Groq API.".toList

def msgProcessFirst : List Char := "⚠️ Please upload and process PDFs first.".toList

def msgCleared : List Char := "🧹 Cleared. Upload PDFs to start again.".toList

/-- The `SYSTEM_PROMPT` constant of `app.py`. -/
def systemPrompt : List Char :=
  ("\nYou are DocPilotAI, an intelligent assistant that answers questions strictly based on the uploaded PDF documents.\nRules:\n- Use ONLY the provided document context to answer.\n- If the answer is not found in the document, clearly say that it is not available in the provided PDFs.\n- Explain answers in a clear, student-friendly way.\nExplanation Style:\n- If the topic is theoretical, conceptual, language-related, or a computer science concept, explain it with simple and clear examples.\n- If the topic is programming or code-related, explain it using relevant code examples taken from or consistent with the document context.\n- Break complex ideas into steps or bullet points when helpful.\n- Keep explanations clear, structured, and easy to understand for a student.\nDo not add outside knowledge. Do not guess. Stay within the document content.\n").toList

/-- Python `"\n\n".join(...)`. -/
def joinNN : List (List Char) → List Char
  | [] => []
  | [c] => c
  | c :: cs => c ++ '\n' :: '\n' :: joinNN cs

/-- Python falsiness of `GROQ_API_KEY` (`os.getenv` result): `None` or the
empty string. -/
def keyFalsy : Option (List Char) → Bool
  | none => true
  | some k => k.isEmpty

/-- `ask_groq` (`app.py` lines 76-108).  The global corpus is threaded
through unchanged (the function never writes it). -/
def askGroq (apiKey : Option (List Char)) (net : Net) (corpus : Corpus)
    (question : List Char) : Corpus × List Char :=
  if keyFalsy apiKey then (corpus, msgNoKey)
  else
    let relevantChunks := retrieveRelevantChunks corpus question 3
    if relevantChunks = [] then (corpus, msgNoRelevant)
    else
      let context := joinNN relevantChunks
      let resp := net [(Role.system, systemPrompt),
                       (Role.system, "Document Context:\n".toList ++ context),
                       (Role.user, question)]
      if resp.status = 200 then (corpus, resp.content)
      else (corpus, msgGroqError)

/-- One uploaded PDF: a list of pages, each of which may or may not yield
text under `page.extract_text()`. -/
abbrev PdfFile : Type := List (Option (List Char))

/-- `extract_text_from_pdfs` (`app.py` lines 33-41): concatenate the text of
every page that yields text, appending a newline after each. -/
def extractTextFromPdfs (files : List PdfFile) : List Char :=
  (files.map (fun f => ((f.filterMap id).map (fun t => t ++ ['\n'])).flatten)).flatten

/-- Python falsiness of the Gradio `files` argument: `None` or an empty
list. -/
def filesFalsy : Option (List PdfFile) → Bool
  | none => true
  | some fs => fs.isEmpty

/-- The success status string built by `process_pdfs`. -/
def msgProcessed (nFiles nChunks : Nat) : List Char :=
  ("✅ " ++ toString nFiles ++ " PDF(s) processed\n📄 " ++ toString nChunks
    ++ " text chunks created").toList

/-- `process_pdfs` (`app.py` lines 111-123), with the global corpus passed
and returned explicitly; returns the new corpus and the status string. -/
def processPdfs (files : Option (List PdfFile)) (corpus : Corpus) :
    Corpus × List Char :=
  if filesFalsy files then (corpus, msgNoFiles)
  else
    match files with
    | none => (corpus, msgNoFiles)
    | some fs =>
      let text := extractTextFromPdfs fs
      let chunks := chunkText text 400
      (chunks, msgProcessed fs.length chunks.length)

/-- `chat_fn` (`app.py` lines 126-137): append the user message, answer with
the usage-order warning when the corpus is empty and with `ask_groq`
otherwise, append the reply, and return the new transcript plus the cleared
textbox value. -/
def chatFn (apiKey : Option (List Char)) (net : Net) (corpus : Corpus)
    (message : List Char) (history : List ChatMsg) : List ChatMsg × List Char :=
  let h1 := history ++ [⟨Role.user, message⟩]
  let reply := if corpus = [] then msgProcessFirst
               else (askGroq apiKey net corpus message).2
  (h1 ++ [⟨Role.assistant, reply⟩], [])

/-- `clear_all` (`app.py` lines 140-143): reset the corpus, return the
cleared chat transcript and the status string. -/
def clearAll (_corpus : Corpus) : Corpus × List ChatMsg × List Char :=
  ([], [], msgCleared)

/-- The operations that mutate the corpus (claim C7): the `process_btn` and
`clear_btn` handlers of the Gradio UI. -/
inductive Op where
  | processOp (files : Option (List PdfFile))
  | clearOp

/-- The corpus after one UI operation. -/
def stepOp (corpus : Corpus) : Op → Corpus
  | Op.processOp files => (processPdfs files corpus).1
  | Op.clearOp => (clearAll corpus).1

/-- The corpus after a sequence of UI operations, starting from the initial
empty `DOCUMENT_CHUNKS`. -/
def runOps (ops : List Op) : Corpus :=
  ops.foldl stepOp []

/-! ### Lemmas about the stable descending sort -/

lemma mem_insertDesc {p a : Nat × List Char} {l : List (Nat × List Char)} :
    a ∈ insertDesc p l ↔ a = p ∨ a ∈ l := by
  induction l with
  | nil => simp [insertDesc]
  | cons q qs ih =>
    simp only [insertDesc]
    split
    · simp
    · simp [ih]
      tauto

lemma mem_sortDesc {a : Nat × List Char} {l : List (Nat × List Char)} :
    a ∈ sortDesc l ↔ a ∈ l := by
  induction l with
  | nil => simp [sortDesc]
  | cons q qs ih => simp [sortDesc, mem_insertDesc, ih]

lemma sorted_insertDesc {p : Nat × List Char} {l : List (Nat × List Char)}
    (hl : List.Sorted (fun p q => q.1 ≤ p.1) l) :
    List.Sorted (fun p q => q.1 ≤ p.1) (insertDesc p l) := by
  induction l with
  | nil => simp [insertDesc]
  | cons q qs ih =>
    simp only [insertDesc]
    rw [List.sorted_cons] at hl
    split
    · rename_i hq
      rw [List.sorted_cons]
      refine ⟨?_, List.sorted_cons.mpr hl⟩
      intro b hb
      rcases List.mem_cons.mp hb with rfl | hb
      · exact hq
      · exact le_trans (hl.1 b hb) hq
    · rename_i hq
      rw [List.sorted_cons]
      refine ⟨?_, ih hl.2⟩
      intro b hb
      rcases mem_insertDesc.mp hb with rfl | hb
      · omega
      · exact hl.1 b hb

lemma sorted_sortDesc (l : List (Nat × List Char)) :
    List.Sorted (fun p q => q.1 ≤ p.1) (sortDesc l) := by
  induction l with
  | nil => simp [sortDesc]
  | cons q qs ih => exact sorted_insertDesc ih

lemma filter_insertDesc {p : Nat × List Char} {l : List (Nat × List Char)} (s : Nat)
    (hl : List.Sorted (fun p q => q.1 ≤ p.1) l) :
    (insertDesc p l).filter (fun q => q.1 == s)
      = if p.1 = s then p :: l.filter (fun q => q.1 == s)
        else l.filter (fun q => q.1 == s) := by
  induction l with
  | nil =>
    simp only [insertDesc, List.filter]
    by_cases hp : p.1 = s <;>
      simp [hp, show (p.1 == s) = decide (p.1 = s) from rfl]
  | cons q qs ih =>
    rw [List.sorted_cons] at hl
    simp only [insertDesc]
    split
    · rename_i hq
      by_cases hp : p.1 = s
      · simp [List.filter, hp]
      · -- p.1 ≠ s and every key in q :: qs is ≤ p.1
        simp [List.filter_cons, hp]
    · rename_i hq
      push_neg at hq
      -- p.1 < q.1, so if p.1 = s then q.1 ≠ s
      rw [List.filter_cons]
      by_cases hqs : (q.1 == s) = true
      · have hq1 : q.1 = s := by simpa using hqs
        have hps : p.1 ≠ s := by omega
        simp only [hqs, if_pos, ih hl.2, hps, if_neg, ite_false]
        simp [List.filter_cons, hqs]
      · simp only [hqs]
        rw [ih hl.2]
        by_cases hp : p.1 = s
        · simp [hp, List.filter_cons, hqs]
        · simp [hp, List.filter_cons, hqs]

lemma filter_sortDesc (l : List (Nat × List Char)) (s : Nat) :
    (sortDesc l).filter (fun q => q.1 == s) = l.filter (fun q => q.1 == s) := by
  induction l with
  | nil => simp [sortDesc]
  | cons q qs ih =>
    simp only [sortDesc]
    rw [filter_insertDesc s (sorted_sortDesc qs), ih, List.filter_cons]
    by_cases hq : q.1 = s
    · simp [hq]
    · simp [hq, show (q.1 == s) = false by simpa using hq]

/-- The scoring pass of `retrieve_relevant_chunks`: the `(overlap, chunk)`
pairs appended by the `for chunk in DOCUMENT_CHUNKS` loop. -/
def scoredChunks (qw : Finset (List Char)) (corpus : Corpus) :
    List (Nat × List Char) :=
  corpus.filterMap (fun chunk =>
    if 0 < (qw ∩ cleanWords chunk).card
    then some ((qw ∩ cleanWords chunk).card, chunk) else none)

lemma retrieveRelevantChunks_eq (corpus : Corpus) (query : List Char) (topK : Nat)
    (hq : ¬ cleanWords query = ∅) :
    retrieveRelevantChunks corpus query topK
      = ((sortDesc (scoredChunks (cleanWords query) corpus)).take topK).map
          (fun p => p.2) := by
  simp only [retrieveRelevantChunks, scoredChunks]
  rw [if_neg hq]

lemma mem_scoredChunks {qw : Finset (List Char)} {corpus : Corpus}
    {p : Nat × List Char} (hp : p ∈ scoredChunks qw corpus) :
    p.2 ∈ corpus ∧ p.1 = (qw ∩ cleanWords p.2).card ∧ 0 < p.1 := by
  rw [scoredChunks, List.mem_filterMap] at hp
  obtain ⟨a, ha, hfa⟩ := hp
  rcases Nat.eq_zero_or_pos ((qw ∩ cleanWords a).card) with h0 | h0
  · rw [if_neg (by omega)] at hfa
    cases hfa
  · rw [if_pos h0] at hfa
    cases hfa
    exact ⟨ha, rfl, h0⟩

lemma map_snd_scoredChunks_sublist (qw : Finset (List Char)) (corpus : Corpus) :
    ((scoredChunks qw corpus).map (fun p => p.2)).Sublist corpus := by
  induction corpus with
  | nil => simp [scoredChunks]
  | cons a l ih =>
    rw [scoredChunks, List.filterMap_cons]
    split
    · exact (ih : ((scoredChunks qw l).map _).Sublist l).trans (List.sublist_cons_self a l)
    · rename_i p hfa
      have hp2 : p.2 = a := by
        split at hfa
        · cases hfa; rfl
        · cases hfa
      rw [List.map_cons, hp2]
      exact (ih : ((scoredChunks qw l).map _).Sublist l).cons₂ a

/-- C1: for every corpus and query, `retrieve_relevant_chunks` returns at
most `top_k` chunks; every returned chunk is an element of the corpus whose
normalized word set meets the query's word set; the returned chunks are
ordered by overlap count descending; and a query normalizing to the empty
word set, or an empty corpus, yields the empty sequence. -/
theorem retrieve_relevant_chunks_spec (corpus : Corpus) (query : List Char)
    (topK : Nat) :
    (retrieveRelevantChunks corpus query topK).length ≤ topK ∧
    (∀ c ∈ retrieveRelevantChunks corpus query topK,
        c ∈ corpus ∧ 0 < (cleanWords query ∩ cleanWords c).card) ∧
    List.Sorted (fun a b => b ≤ a)
      ((retrieveRelevantChunks corpus query topK).map
        (fun c => (cleanWords query ∩ cleanWords c).card)) ∧
    (cleanWords query = ∅ → retrieveRelevantChunks corpus query topK = []) ∧
    (corpus = [] → retrieveRelevantChunks corpus query topK = []) := by
  by_cases hq : cleanWords query = ∅
  · have he : retrieveRelevantChunks corpus query topK = [] := by
      simp [retrieveRelevantChunks, hq]
    rw [he]
    simp [List.Sorted]
  · rw [retrieveRelevantChunks_eq corpus query topK hq]
    refine ⟨?_, ?_, ?_, ?_, ?_⟩
    · rw [List.length_map, List.length_take]
      exact min_le_left _ _
    · intro c hc
      rw [List.mem_map] at hc
      obtain ⟨p, hp, rfl⟩ := hc
      have hps : p ∈ scoredChunks (cleanWords query) corpus :=
        mem_sortDesc.mp (List.mem_of_mem_take hp)
      obtain ⟨h1, h2, h3⟩ := mem_scoredChunks hps
      exact ⟨h1, h2 ▸ h3⟩
    · rw [List.map_map]
      have hcg : ((sortDesc (scoredChunks (cleanWords query) corpus)).take topK).map
            ((fun c => (cleanWords query ∩ cleanWords c).card) ∘ fun p => p.2)
          = ((sortDesc (scoredChunks (cleanWords query) corpus)).take topK).map
            (fun p => p.1) := by
        apply List.map_congr_left
        intro p hp
        have hps : p ∈ scoredChunks (cleanWords query) corpus :=
          mem_sortDesc.mp (List.mem_of_mem_take hp)
        exact ((mem_scoredChunks hps).2.1).symm
      rw [hcg]
      have hsorted := sorted_sortDesc (scoredChunks (cleanWords query) corpus)
      have htake : List.Pairwise (fun p q : Nat × List Char => q.1 ≤ p.1)
          ((sortDesc (scoredChunks (cleanWords query) corpus)).take topK) :=
        List.Pairwise.sublist (List.take_sublist _ _) hsorted
      rw [List.Sorted, List.pairwise_map]
      exact htake
    · intro h
      exact absurd h hq
    · intro h
      subst h
      simp [scoredChunks, sortDesc]

/-- C4: among chunks with equal overlap counts, `retrieve_relevant_chunks`
preserves the original corpus order: for every score `s`, the returned chunks
scoring `s` form a sublist (in-order subsequence) of the corpus. -/
theorem retrieve_relevant_chunks_stable (corpus : Corpus) (query : List Char)
    (topK s : Nat) :
    ((retrieveRelevantChunks corpus query topK).filter
        (fun c => (cleanWords query ∩ cleanWords c).card == s)).Sublist corpus := by
  by_cases hq : cleanWords query = ∅
  · have he : retrieveRelevantChunks corpus query topK = [] := by
      simp [retrieveRelevantChunks, hq]
    rw [he]
    exact List.nil_sublist corpus
  · rw [retrieveRelevantChunks_eq corpus query topK hq]
    rw [List.filter_map]
    have hcg : ((sortDesc (scoredChunks (cleanWords query) corpus)).take topK).filter
          ((fun c => (cleanWords query ∩ cleanWords c).card == s) ∘ fun p => p.2)
        = ((sortDesc (scoredChunks (cleanWords query) corpus)).take topK).filter
          (fun p => p.1 == s) := by
      apply List.filter_congr
      intro p hp
      have hps : p ∈ scoredChunks (cleanWords query) corpus :=
        mem_sortDesc.mp (List.mem_of_mem_take hp)
      simp only [Function.comp_apply, ((mem_scoredChunks hps).2.1).symm]
    rw [hcg]
    have h1 : (((sortDesc (scoredChunks (cleanWords query) corpus)).take topK).filter
          (fun p => p.1 == s)).Sublist
        ((sortDesc (scoredChunks (cleanWords query) corpus)).filter
          (fun p => p.1 == s)) :=
      List.Sublist.filter _ (List.take_sublist _ _)
    rw [filter_sortDesc] at h1
    have h2 := h1.trans (List.filter_sublist (l := scoredChunks (cleanWords query) corpus))
    exact (h2.map (fun p => p.2)).trans (map_snd_scoredChunks_sublist _ _)

/-! ### Lemmas about `splitWs` and `cleanWords` -/

lemma mem_splitWsAux {P : Char → Prop} :
    ∀ (s acc : List Char), (∀ c ∈ s, P c ∨ pyIsSpace c = true) →
      (∀ c ∈ acc, P c ∧ pyIsSpace c = false) →
      ∀ w ∈ splitWsAux s acc, w ≠ [] ∧ ∀ c ∈ w, P c ∧ pyIsSpace c = false
  | [], acc, _hs, hacc => by
    intro w hw
    rw [splitWsAux] at hw
    split at hw
    · cases hw
    · rename_i hne
      rw [List.mem_singleton] at hw
      subst hw
      constructor
      · simp only [ne_eq, List.reverse_eq_nil_iff]
        intro h
        rw [h] at hne
        simp at hne
      · intro c hc
        exact hacc c (List.mem_reverse.mp hc)
  | c :: cs, acc, hs, hacc => by
    intro w hw
    rw [splitWsAux] at hw
    by_cases hsp : pyIsSpace c = true
    · rw [if_pos hsp] at hw
      have hs' : ∀ d ∈ cs, P d ∨ pyIsSpace d = true :=
        fun d hd => hs d (List.mem_cons_of_mem c hd)
      split at hw
      · exact mem_splitWsAux cs [] hs' (by simp) w hw
      · rename_i hne
        rcases List.mem_cons.mp hw with rfl | hw'
        · constructor
          · simp only [ne_eq, List.reverse_eq_nil_iff]
            intro h
            rw [h] at hne
            simp at hne
          · intro d hd
            exact hacc d (List.mem_reverse.mp hd)
        · exact mem_splitWsAux cs [] hs' (by simp) w hw'
    · rw [if_neg hsp] at hw
      have hc : P c := by
        rcases hs c (List.mem_cons_self c cs) with h | h
        · exact h
        · exact absurd h hsp
      refine mem_splitWsAux cs (c :: acc) ?_ ?_ w hw
      · exact fun d hd => hs d (List.mem_cons_of_mem c hd)
      · intro d hd
        rcases List.mem_cons.mp hd with rfl | hd'
        · exact ⟨hc, eq_false_of_ne_true hsp⟩
        · exact hacc d hd'

lemma sanitized_chars (text : List Char) :
    ∀ c ∈ (text.map Char.toLower).map sanitizeChar,
      isKeep c = true ∨ pyIsSpace c = true := by
  intro c hc
  rw [List.mem_map] at hc
  obtain ⟨d, _, rfl⟩ := hc
  rw [sanitizeChar]
  split
  · rename_i h
    rcases Bool.or_eq_true_iff.mp h with h' | h'
    · exact Or.inl h'
    · exact Or.inr h'
  · right
    rfl

/-- Every word produced by `clean_words` is nonempty and consists only of
lowercase alphanumeric characters. -/
lemma mem_cleanWords {text w : List Char} (hw : w ∈ cleanWords text) :
    w ≠ [] ∧ ∀ c ∈ w, isKeep c = true ∧ pyIsSpace c = false := by
  rw [cleanWords, List.mem_toFinset] at hw
  exact mem_splitWsAux _ []
    (fun c hc => sanitized_chars text c hc) (by simp) w hw

lemma splitWsAux_append_space (ys : List Char) :
    ∀ (xs acc : List Char),
      splitWsAux (xs ++ ' ' :: ys) acc = splitWsAux xs acc ++ splitWsAux ys []
  | [], acc => by
    rw [List.nil_append, splitWsAux, splitWsAux]
    have : pyIsSpace ' ' = true := rfl
    rw [if_pos this]
    split
    · rw [List.nil_append]
    · rw [List.singleton_append]
  | c :: cs, acc => by
    rw [List.cons_append, splitWsAux, splitWsAux]
    by_cases hsp : pyIsSpace c = true
    · rw [if_pos hsp, if_pos hsp]
      split
      · exact splitWsAux_append_space ys cs []
      · rw [splitWsAux_append_space ys cs [], List.cons_append]
    · rw [if_neg hsp, if_neg hsp]
      exact splitWsAux_append_space ys cs (c :: acc)

lemma splitWsAux_no_space (t : List Char) :
    ∀ (w acc : List Char), (∀ c ∈ w, pyIsSpace c = false) →
      splitWsAux (w ++ t) acc = splitWsAux t (w.reverse ++ acc)
  | [], acc, _ => by rw [List.nil_append, List.reverse_nil, List.nil_append]
  | c :: w', acc, hw => by
    rw [List.cons_append, splitWsAux]
    have hc : pyIsSpace c = false := hw c (List.mem_cons_self c w')
    rw [if_neg (by simp [hc])]
    rw [splitWsAux_no_space t w' (c :: acc)
      (fun d hd => hw d (List.mem_cons_of_mem c hd))]
    rw [List.reverse_cons, List.append_assoc, List.singleton_append]

lemma splitWs_single (w : List Char) (hne : w ≠ [])
    (hns : ∀ c ∈ w, pyIsSpace c = false) : splitWs w = [w] := by
  rw [splitWs]
  have h := splitWsAux_no_space [] w [] hns
  rw [List.append_nil] at h
  rw [h, List.append_nil, splitWsAux]
  rw [if_neg (by simp [hne]), List.reverse_reverse]

/-- Python `" ".join(...)` on a list of words. -/
def joinWords : List (List Char) → List Char
  | [] => []
  | [w] => w
  | w :: ws => w ++ ' ' :: joinWords ws

lemma splitWs_joinWords :
    ∀ l : List (List Char),
      (∀ w ∈ l, w ≠ [] ∧ ∀ c ∈ w, pyIsSpace c = false) →
      splitWs (joinWords l) = l
  | [], _ => by rw [joinWords]; rfl
  | [w], h => by
    rw [joinWords]
    exact splitWs_single w (h w (by simp)).1 (h w (by simp)).2
  | w :: w' :: l, h => by
    rw [show joinWords (w :: w' :: l) = w ++ ' ' :: joinWords (w' :: l) from rfl]
    rw [splitWs, splitWsAux_append_space (joinWords (w' :: l)) w []]
    have h1 : splitWsAux w [] = [w] :=
      splitWs_single w (h w (by simp)).1 (h w (by simp)).2
    rw [h1]
    have h2 : splitWs (joinWords (w' :: l)) = w' :: l :=
      splitWs_joinWords (w' :: l) (fun v hv => h v (List.mem_cons_of_mem w hv))
    rw [splitWs] at h2
    rw [h2]
    rfl

lemma toLower_eq_self {c : Char} (h : isKeep c = true ∨ c = ' ') :
    Char.toLower c = c := by
  rcases h with h | rfl
  · rw [isKeep] at h
    rcases Bool.or_eq_true_iff.mp h with h' | h' <;>
    · rw [Bool.and_eq_true, decide_eq_true_eq, decide_eq_true_eq] at h'
      rw [Char.toLower]
      split
      · rename_i hcond
        omega
      · rfl
  · rfl

lemma sanitizeChar_eq_self {c : Char} (h : isKeep c = true ∨ c = ' ') :
    sanitizeChar c = c := by
  rw [sanitizeChar]
  rcases h with h | rfl
  · rw [if_pos (by simp [h])]
  · rfl

lemma joinWords_chars :
    ∀ l : List (List Char), (∀ w ∈ l, ∀ c ∈ w, isKeep c = true) →
      ∀ c ∈ joinWords l, isKeep c = true ∨ c = ' '
  | [], _ => by intro c hc; cases hc
  | [w], h => by
    intro c hc
    rw [joinWords] at hc
    exact Or.inl (h w (by simp) c hc)
  | w :: w' :: l, h => by
    intro c hc
    rw [show joinWords (w :: w' :: l) = w ++ ' ' :: joinWords (w' :: l) from rfl] at hc
    rcases List.mem_append.mp hc with hc' | hc'
    · exact Or.inl (h w (by simp) c hc')
    · rcases List.mem_cons.mp hc' with rfl | hc''
      · exact Or.inr rfl
      · exact joinWords_chars (w' :: l) (fun v hv => h v (List.mem_cons_of_mem w hv)) c hc''

/-- C5: normalization is idempotent.  For any enumeration `l` of the word set
`clean_words s`, joining `l` with spaces and normalizing again yields the
same word set. -/
theorem clean_words_idempotent (s : List Char) (l : List (List Char))
    (hl : l.toFinset = cleanWords s) :
    cleanWords (joinWords l) = cleanWords s := by
  have hword : ∀ w ∈ l, w ≠ [] ∧ ∀ c ∈ w, isKeep c = true ∧ pyIsSpace c = false := by
    intro w hw
    exact mem_cleanWords (hl ▸ List.mem_toFinset.mpr hw)
  have hchars : ∀ c ∈ joinWords l, isKeep c = true ∨ c = ' ' :=
    joinWords_chars l (fun w hw c hc => ((hword w hw).2 c hc).1)
  have hmap : ((joinWords l).map Char.toLower).map sanitizeChar = joinWords l := by
    rw [List.map_map]
    have hid : ∀ c ∈ joinWords l, (sanitizeChar ∘ Char.toLower) c = id c := by
      intro c hc
      simp only [Function.comp_apply, id_eq]
      rw [toLower_eq_self (hchars c hc), sanitizeChar_eq_self (hchars c hc)]
    rw [List.map_congr_left hid, List.map_id]
  rw [cleanWords, hmap,
    splitWs_joinWords l
      (fun w hw => ⟨(hword w hw).1, fun c hc => ((hword w hw).2 c hc).2⟩),
    hl]

/-- C5 witness at a concrete input. -/
theorem clean_words_idempotent_witness :
    ["hello".toList, "world".toList].toFinset
        = cleanWords "Hello, world! HELLO".toList ∧
    cleanWords (joinWords ["hello".toList, "world".toList])
        = cleanWords "Hello, world! HELLO".toList :=
  ⟨by decide, clean_words_idempotent _ _ (by decide)⟩

lemma cleanWords_append_space (a b : List Char) :
    cleanWords (a ++ ' ' :: b) = cleanWords a ∪ cleanWords b := by
  rw [cleanWords, cleanWords, cleanWords]
  rw [List.map_append, List.map_cons, List.map_append, List.map_cons]
  have h1 : Char.toLower ' ' = ' ' := by decide
  have h2 : sanitizeChar ' ' = ' ' := by decide
  rw [h1, h2, splitWs, splitWsAux_append_space _ _ [],
    List.toFinset_append]
  rfl

/-- C6: overlap scoring is monotonic.  If `w` is a word of the query's
normalized word set, appending `" " ++ w` to a chunk's text does not decrease
the chunk's overlap score `len(clean_words(query) & clean_words(chunk))`. -/
theorem overlap_monotonic (query chunk w : List Char)
    (_hw : w ∈ cleanWords query) :
    (cleanWords query ∩ cleanWords chunk).card
      ≤ (cleanWords query ∩ cleanWords (chunk ++ ' ' :: w)).card := by
  rw [cleanWords_append_space]
  exact Finset.card_le_card
    (Finset.inter_subset_inter (Finset.Subset.refl _) Finset.subset_union_left)

/-- C6 witness at a concrete input. -/
theorem overlap_monotonic_witness :
    "dog".toList ∈ cleanWords "cat dog".toList ∧
    (cleanWords "cat dog".toList ∩ cleanWords "the cat".toList).card
      ≤ (cleanWords "cat dog".toList
          ∩ cleanWords ("the cat".toList ++ ' ' :: "dog".toList)).card :=
  ⟨by decide, overlap_monotonic _ _ _ (by decide)⟩

/-! ### Lemmas about `pyStrip` -/

lemma dropWhile_eq_cons_head_false {f : Char → Bool} :
    ∀ (l : List Char) {x : Char} {rest : List Char},
      l.dropWhile f = x :: rest → f x = false
  | [], x, rest, h => by cases h
  | a :: l, x, rest, h => by
    rw [List.dropWhile_cons] at h
    by_cases hfa : f a = true
    · rw [if_pos hfa] at h
      exact dropWhile_eq_cons_head_false l h
    · rw [if_neg hfa] at h
      cases h
      exact eq_false_of_ne_true hfa

/-- `str.strip()` is idempotent. -/
lemma pyStrip_pyStrip (s : List Char) : pyStrip (pyStrip s) = pyStrip s := by
  have h2 : (pyStrip s).reverse.dropWhile pyIsSpace = (pyStrip s).reverse := by
    rw [pyStrip, List.reverse_reverse]
    exact List.dropWhile_idempotent _ _
  have h1 : (pyStrip s).dropWhile pyIsSpace = pyStrip s := by
    cases hv : pyStrip s with
    | nil => rfl
    | cons x v' =>
      obtain ⟨t, ht⟩ :=
        List.dropWhile_suffix (l := (s.dropWhile pyIsSpace).reverse) pyIsSpace
      have hu2 : s.dropWhile pyIsSpace = pyStrip s ++ t.reverse := by
        have h := congrArg List.reverse ht
        rw [List.reverse_append, List.reverse_reverse] at h
        rw [pyStrip]
        exact h.symm
      have hx : s.dropWhile pyIsSpace = x :: (v' ++ t.reverse) := by
        rw [hu2, hv, List.cons_append]
      have hfx : pyIsSpace x = false := dropWhile_eq_cons_head_false s hx
      rw [List.dropWhile_cons, hfx]
      simp
  show (((pyStrip s).dropWhile pyIsSpace).reverse.dropWhile pyIsSpace).reverse
      = pyStrip s
  rw [h1, h2, List.reverse_reverse]

/-! ### Lemmas about `chunkText` -/

/-- The raw (unstripped, unfiltered) windows `text[i : i+cs]` visited by the
`chunk_text` loop. -/
def rawWindows (cs : Nat) (text : List Char) : List (List Char) :=
  if h : cs = 0 ∨ text = [] then []
  else text.take cs :: rawWindows cs (text.drop cs)
termination_by text.length
decreasing_by
  simp only [not_or] at h
  simp only [List.length_drop]
  have h3 : 0 < text.length := List.length_pos.mpr h.2
  have h1 : cs ≠ 0 := h.1
  omega

lemma rawWindows_flatten_aux (cs : Nat) (hcs : 0 < cs) :
    ∀ (n : Nat) (text : List Char), text.length ≤ n →
      (rawWindows cs text).flatten = text := by
  intro n
  induction n with
  | zero =>
    intro text hlen
    have he : text = [] := List.length_eq_zero.mp (Nat.le_zero.mp hlen)
    subst he
    rw [rawWindows, dif_pos (Or.inr rfl)]
    rfl
  | succ n ih =>
    intro text hlen
    by_cases he : text = []
    · subst he
      rw [rawWindows, dif_pos (Or.inr rfl)]
      rfl
    · rw [rawWindows, dif_neg (by push_neg; exact ⟨by omega, he⟩)]
      rw [List.flatten_cons,
        ih (text.drop cs) (by
          rw [List.length_drop]
          have := List.length_pos.mpr he
          omega)]
      exact List.take_append_drop cs text

/-- The windows of `chunk_text` concatenate back to the input text. -/
lemma rawWindows_flatten (cs : Nat) (hcs : 0 < cs) (text : List Char) :
    (rawWindows cs text).flatten = text :=
  rawWindows_flatten_aux cs hcs text.length text le_rfl

lemma chunkTextGo_eq_filter_aux (cs : Nat) :
    ∀ (n : Nat) (text : List Char), text.length ≤ n →
      chunkTextGo cs text
        = ((rawWindows cs text).map pyStrip).filter (fun w => 50 < w.length) := by
  intro n
  induction n with
  | zero =>
    intro text hlen
    have he : text = [] := List.length_eq_zero.mp (Nat.le_zero.mp hlen)
    subst he
    rw [chunkTextGo, rawWindows, dif_pos (Or.inr rfl), dif_pos (Or.inr rfl)]
    rfl
  | succ n ih =>
    intro text hlen
    by_cases h0 : cs = 0 ∨ text = []
    · rw [chunkTextGo, rawWindows, dif_pos h0, dif_pos h0]
      rfl
    · rw [chunkTextGo, rawWindows, dif_neg h0, dif_neg h0]
      push_neg at h0
      rw [List.map_cons, List.filter_cons]
      rw [ih (text.drop cs) (by
        rw [List.length_drop]
        have := List.length_pos.mpr h0.2
        have : cs ≠ 0 := h0.1
        omega)]
      by_cases hlen50 : 50 < (pyStrip (text.take cs)).length
      · rw [if_pos hlen50]
        simp [hlen50]
      · rw [if_neg hlen50]
        simp [hlen50]

/-- `chunk_text` is: strip every raw window, keep the long ones, in order. -/
lemma chunkTextGo_eq_filter (cs : Nat) (text : List Char) :
    chunkTextGo cs text
      = ((rawWindows cs text).map pyStrip).filter (fun w => 50 < w.length) :=
  chunkTextGo_eq_filter_aux cs text.length text le_rfl

lemma rawWindows_eq_range_aux (cs : Nat) (hcs : 0 < cs) :
    ∀ (n : Nat) (text : List Char), text.length ≤ n →
      rawWindows cs text
        = (List.range ((text.length + cs - 1) / cs)).map
            (fun k => (text.drop (k * cs)).take cs) := by
  intro n
  induction n with
  | zero =>
    intro text hlen
    have he : text = [] := List.length_eq_zero.mp (Nat.le_zero.mp hlen)
    subst he
    rw [rawWindows, dif_pos (Or.inr rfl)]
    have : (([] : List Char).length + cs - 1) / cs = 0 :=
      Nat.div_eq_of_lt (by simp; omega)
    rw [this]
    rfl
  | succ n ih =>
    intro text hlen
    by_cases he : text = []
    · subst he
      rw [rawWindows, dif_pos (Or.inr rfl)]
      have : (([] : List Char).length + cs - 1) / cs = 0 :=
        Nat.div_eq_of_lt (by simp; omega)
      rw [this]
      rfl
    · rw [rawWindows, dif_neg (by push_neg; exact ⟨by omega, he⟩)]
      have hpos : 0 < text.length := List.length_pos.mpr he
      have hcount : (text.length + cs - 1) / cs = (text.length - 1) / cs + 1 := by
        have h1 : text.length + cs - 1 = (text.length - 1) + cs := by omega
        rw [h1, Nat.add_div_right _ hcs]
      rw [hcount, List.range_succ_eq_map, List.map_cons]
      have hdrop : (text.drop (0 * cs)).take cs = text.take cs := by
        rw [Nat.zero_mul, List.drop_zero]
      rw [hdrop]
      congr 1
      rw [ih (text.drop cs) (by rw [List.length_drop]; omega)]
      have hcount2 : ((text.drop cs).length + cs - 1) / cs = (text.length - 1) / cs := by
        rw [List.length_drop]
        rcases le_or_lt cs text.length with hle | hlt
        · congr 1
          omega
        · have e1 : text.length - cs = 0 := by omega
          rw [e1]
          rw [Nat.div_eq_of_lt (by omega), Nat.div_eq_of_lt (by omega)]
      rw [hcount2, List.map_map]
      apply List.map_congr_left
      intro k _
      simp only [Function.comp_apply]
      rw [List.drop_drop]
      congr 2
      rw [Nat.succ_eq_add_one]
      ring

/-- Windows as index slices: `rawWindows` lists `text[k*cs : k*cs+cs]` for
`k*cs < text.length`. -/
lemma rawWindows_eq_range (cs : Nat) (hcs : 0 < cs) (text : List Char) :
    rawWindows cs text
      = (List.range ((text.length + cs - 1) / cs)).map
          (fun k => (text.drop (k * cs)).take cs) :=
  rawWindows_eq_range_aux cs hcs text.length text le_rfl

/-- C2: for every text and positive `chunk_size`, `chunk_text` returns
exactly the stripped windows `text[i : i+chunk_size]` for
`i = 0, chunk_size, 2*chunk_size, ...`, keeping only those whose stripped
length exceeds 50 characters, in original left-to-right order. -/
theorem chunk_text_spec (text : List Char) (cs : Nat) (hcs : 0 < cs) :
    chunkText text cs
      = ((List.range ((text.length + cs - 1) / cs)).map
          (fun k => pyStrip ((text.drop (k * cs)).take cs))).filter
          (fun w => 50 < w.length) := by
  rw [chunkText, chunkTextGo_eq_filter, rawWindows_eq_range cs hcs, List.map_map]
  rfl

/-- A sample text for the witnesses: 130 characters. -/
def sampleText : List Char :=
  ("The quick brown fox jumps over the lazy dog.  " ++
   "Pack my box with five dozen liquor jugs; how vexingly quick daft zebras jump!").toList

/-- C2 witness at a concrete input (`chunk_size` 60). -/
theorem chunk_text_spec_witness :
    0 < 60 ∧
    chunkText sampleText 60
      = ((List.range ((sampleText.length + 60 - 1) / 60)).map
          (fun k => pyStrip ((sampleText.drop (k * 60)).take 60))).filter
          (fun w => 50 < w.length) :=
  ⟨by decide, chunk_text_spec sampleText 60 (by decide)⟩

/-- C3 (amended): the windows of `chunk_text` concatenate back to the
original text, and the returned chunks are exactly the stripped windows of
stripped length `> 50`; hence the only material dropped, besides the
whitespace trimmed from each window, consists of window contents of stripped
length `≤ 50` — which can occur at any window, not only at the end of the
text. -/
theorem chunk_text_reconstruction (text : List Char) (cs : Nat) (hcs : 0 < cs) :
    ∃ ws : List (List Char), ws.flatten = text ∧
      chunkText text cs = (ws.map pyStrip).filter (fun w => 50 < w.length) :=
  ⟨rawWindows cs text, rawWindows_flatten cs hcs text,
    chunkTextGo_eq_filter cs text⟩

/-- C3 witness at a concrete input. -/
theorem chunk_text_reconstruction_witness :
    0 < 60 ∧
    ∃ ws : List (List Char), ws.flatten = sampleText ∧
      chunkText sampleText 60 = (ws.map pyStrip).filter (fun w => 50 < w.length) :=
  ⟨by decide, chunk_text_reconstruction sampleText 60 (by decide)⟩

/-- C3 as stated: dropping only a short trailing fragment.  There is an index
`n` such that the part of the text beyond `n` is a fragment of stripped
length `≤ 50`, and the concatenated chunks reconstruct `text[:n]` up to
whitespace (formally: equal after discarding whitespace characters, which is
exactly the data `strip` may remove from the windows). -/
def dropsOnlyTrailing (cs : Nat) (text : List Char) : Prop :=
  ∃ n ≤ text.length, (pyStrip (text.drop n)).length ≤ 50 ∧
    ((chunkText text cs).flatten).filter (fun c => !pyIsSpace c)
      = (text.take n).filter (fun c => !pyIsSpace c)

/-- The counterexample text for C3 (851 characters, `chunk_size` 400): window
0 is 400 letters, window 1 is 399 spaces followed by the letter `a` (stripped
length 1, so it is discarded in the middle of the text), window 2 is 51
letters. -/
def cexText : List Char :=
  List.replicate 400 'x' ++ List.replicate 399 ' ' ++ 'a' :: List.replicate 51 'y'

set_option maxRecDepth 40000 in
set_option maxHeartbeats 4000000 in
/-- C3 counterexample: `chunk_text` drops the non-whitespace character `a`
from the middle window of `cexText`, so no split into a reconstructed part
and a short trailing fragment exists. -/
theorem chunk_text_reconstruction_cex : ¬ dropsOnlyTrailing 400 cexText := by
  rintro ⟨n, hn, hshort, heq⟩
  have hc : chunkText cexText 400
      = [List.replicate 400 'x', List.replicate 51 'y'] := by
    rw [chunkText, chunkTextGo_eq_filter, rawWindows_eq_range 400 (by norm_num)]
    decide
  rw [hc] at heq
  have hlen : cexText.length = 851 := by decide
  rw [hlen] at hn
  rcases Nat.lt_or_ge n 850 with h850 | h850
  · -- `text[:n]` keeps at most 450 non-space characters, the chunks have 451
    have hK : ((([List.replicate 400 'x', List.replicate 51 'y']
        : List (List Char)).flatten).filter (fun c => !pyIsSpace c)).length
        = 451 := by decide
    have h849 : ((cexText.take 849).filter (fun c => !pyIsSpace c)).length
        = 450 := by decide
    have hsub : ((cexText.take n).filter (fun c => !pyIsSpace c)).length ≤ 450 := by
      rw [← h849]
      apply List.Sublist.length_le
      apply List.Sublist.filter
      have ht : cexText.take n = (cexText.take 849).take n := by
        rw [List.take_take, min_eq_left (by omega)]
      rw [ht]
      exact List.take_sublist n _
    have hlen2 := congrArg List.length heq
    rw [hK] at hlen2
    omega
  · -- `n = 850` or `n = 851`: `text[:n]` contains the dropped letter `a`
    have hn2 : n = 850 ∨ n = 851 := by omega
    rcases hn2 with rfl | rfl
    · exact absurd heq (by decide)
    · exact absurd heq (by decide)

/-- Chunks produced by `chunk_text` are stripped and longer than 50. -/
lemma chunkText_valid {text : List Char} {cs : Nat} {c : List Char}
    (hc : c ∈ chunkText text cs) : pyStrip c = c ∧ 50 < c.length := by
  rw [chunkText, chunkTextGo_eq_filter] at hc
  rw [List.mem_filter] at hc
  obtain ⟨hmem, hlen⟩ := hc
  rw [List.mem_map] at hmem
  obtain ⟨w, _, rfl⟩ := hmem
  exact ⟨pyStrip_pyStrip w, by simpa using hlen⟩

lemma foldl_stepOp_valid :
    ∀ (ops : List Op) (init : Corpus),
      (∀ c ∈ init, pyStrip c = c ∧ 50 < c.length) →
      ∀ c ∈ ops.foldl stepOp init, pyStrip c = c ∧ 50 < c.length
  | [], init, hinit => by simpa using hinit
  | op :: ops, init, hinit => by
    rw [List.foldl_cons]
    apply foldl_stepOp_valid ops
    cases op with
    | clearOp =>
      intro c hc
      simp [stepOp, clearAll] at hc
    | processOp files =>
      intro c hc
      rw [stepOp] at hc
      cases files with
      | none =>
        have h1 : processPdfs none init = (init, msgNoFiles) := rfl
        rw [h1] at hc
        exact hinit c hc
      | some fs =>
        cases fs with
        | nil =>
          have h1 : processPdfs (some []) init = (init, msgNoFiles) := rfl
          rw [h1] at hc
          exact hinit c hc
        | cons f fs' =>
          have h1 : (processPdfs (some (f :: fs')) init).1
              = chunkText (extractTextFromPdfs (f :: fs')) 400 := rfl
          rw [h1] at hc
          exact chunkText_valid hc

/-- C7: after any sequence of `process_pdfs` / `clear_all` operations
starting from the initial empty corpus, every chunk stored in
`DOCUMENT_CHUNKS` equals its own stripped form and is longer than 50
characters. -/
theorem corpus_invariant (ops : List Op) :
    ∀ c ∈ runOps ops, pyStrip c = c ∧ 50 < c.length :=
  foldl_stepOp_valid ops [] (by simp)

/-- C7 witness: a one-PDF processing run, with a concrete stored chunk. -/
theorem corpus_invariant_witness :
    pyStrip (List.replicate 60 'a') = List.replicate 60 'a'
      ∧ 50 < (List.replicate 60 'a').length :=
  corpus_invariant [Op.processOp (some [[some (List.replicate 60 'a')]])]
    (List.replicate 60 'a')
    (by
      have h1 : runOps [Op.processOp (some [[some (List.replicate 60 'a')]])]
          = chunkText (extractTextFromPdfs [[some (List.replicate 60 'a')]]) 400 :=
        rfl
      rw [h1, chunkText, chunkTextGo_eq_filter,
        rawWindows_eq_range 400 (by norm_num)]
      decide)

/-- C8: `process_pdfs` with a missing (`None`) or empty file list returns the
"no files uploaded" status and leaves the corpus unchanged. -/
theorem process_pdfs_no_files (corpus : Corpus) :
    processPdfs none corpus = (corpus, msgNoFiles)
      ∧ processPdfs (some []) corpus = (corpus, msgNoFiles) :=
  ⟨rfl, rfl⟩

/-- C9: `clear_all` resets the corpus to the empty sequence; any question
asked on the empty corpus is answered with the "process documents first"
message, which differs from the "no relevant information" message that a
non-empty corpus yielding no matching chunks produces. -/
theorem clear_then_chat (corpus : Corpus) (apiKey : Option (List Char))
    (net : Net) (message : List Char) (history : List ChatMsg) :
    (clearAll corpus).1 = [] ∧
    chatFn apiKey net (clearAll corpus).1 message history
      = (history ++ [⟨Role.user, message⟩, ⟨Role.assistant, msgProcessFirst⟩], []) ∧
    msgProcessFirst ≠ msgNoRelevant ∧
    (∀ corpus2 : Corpus, corpus2 ≠ [] → keyFalsy apiKey = false →
      retrieveRelevantChunks corpus2 message 3 = [] →
      chatFn apiKey net corpus2 message history
        = (history ++ [⟨Role.user, message⟩, ⟨Role.assistant, msgNoRelevant⟩], [])) := by
  refine ⟨rfl, ?_, by decide, ?_⟩
  · simp [chatFn, clearAll]
  · intro corpus2 hne hkey hret
    simp [chatFn, hne, askGroq, hkey, hret]

/-- C9 witness: a non-empty corpus with no matching chunks produces the "no
relevant information" reply. -/
theorem clear_then_chat_witness :
    chatFn (some "k".toList) (fun _ => ⟨200, "ok".toList⟩)
        [List.replicate 60 'z'] "hello".toList []
      = ([⟨Role.user, "hello".toList⟩, ⟨Role.assistant, msgNoRelevant⟩], []) :=
  (clear_then_chat [] (some "k".toList) (fun _ => ⟨200, "ok".toList⟩)
      "hello".toList []).2.2.2
    [List.replicate 60 'z'] (by decide) (by decide) (by decide)

/-- C10: when `GROQ_API_KEY` is unset (or empty, which Python treats the
same), `ask_groq` returns the key-not-found error string for every corpus
state and every behaviour of the completion service — it never consults
either — and the corpus is left unchanged. -/
theorem ask_groq_no_key (apiKey : Option (List Char)) (net : Net)
    (corpus : Corpus) (question : List Char) (hk : keyFalsy apiKey = true) :
    askGroq apiKey net corpus question = (corpus, msgNoKey) := by
  rw [askGroq, if_pos hk]

/-- C10 witness at a concrete input. -/
theorem ask_groq_no_key_witness :
    askGroq none (fun _ => ⟨200, "ok".toList⟩) [List.replicate 60 'z']
        "hello".toList
      = ([List.replicate 60 'z'], msgNoKey) :=
  ask_groq_no_key none (fun _ => ⟨200, "ok".toList⟩) [List.replicate 60 'z']
    "hello".toList (by decide)

/-- C1 witness: at the concrete corpus/query of the spec's test scenario,
a returned chunk is in the corpus and overlaps the query. -/
theorem retrieve_relevant_chunks_spec_witness :
    "dogs bark loudly at night".toList ∈
        ["the cat sat on the mat".toList, "dogs bark loudly at night".toList,
         "cats and dogs are pets".toList] ∧
    0 < (cleanWords "cat dogs night".toList
          ∩ cleanWords "dogs bark loudly at night".toList).card :=
  (retrieve_relevant_chunks_spec
      ["the cat sat on the mat".toList, "dogs bark loudly at night".toList,
       "cats and dogs are pets".toList] "cat dogs night".toList 3).2.1
    "dogs bark loudly at night".toList (by decide)

end DocPilot
